import Mathlib

/-!
Verification of the comment-stripping scanner in `tools/strip_comments.py`.

The source program reads a file, scans it character by character through a
five-state automaton that removes `//` line comments while preserving block
comments and string/char literals, then post-processes the result by splitting
it into lines (Python `str.splitlines` semantics), stripping trailing
whitespace from each line (Python `str.rstrip` semantics), joining the lines
with a newline and appending one final newline.  A thin driver validates the
command-line argument and the file path before creating a backup and
overwriting the file.

Strings are modelled as `List Char`.  Every definition mirrors the
corresponding Python code branch by branch.
-/

namespace StripComments

/-- The five values of the Python `state` variable (line 29 of the source). -/
inductive State where
  | normal
  | lineComment
  | blockComment
  | strLit
  | charLit
deriving DecidableEq, Repr

/-- The character-level scan loop (lines 32-102 of the source), written as a
recursion on the remaining input.  `scan st s` is the list of characters the
loop appends to `out_chars` while consuming `s` starting in state `st`.
Each branch mirrors one branch of the Python `while` loop.  The two-character
lookaheads `s.startswith ("//", i)` and friends need the next character, so
inputs of length one (where every lookahead fails and the `i + 1 < length`
guard of the escape branches is false) are split into their own patterns. -/
def scan : State → List Char → List Char
  | _, [] => []
  | State.normal, [c] =>
      if c = '/' then [c]
      else if c = '"' then c :: scan State.strLit []
      else if c = '\'' then c :: scan State.charLit []
      else c :: scan State.normal []
  | State.normal, c :: d :: rest2 =>
      if c = '/' then
        if d = '/' then scan State.lineComment rest2
        else if d = '*' then c :: d :: scan State.blockComment rest2
        else c :: scan State.normal (d :: rest2)
      else if c = '"' then c :: scan State.strLit (d :: rest2)
      else if c = '\'' then c :: scan State.charLit (d :: rest2)
      else c :: scan State.normal (d :: rest2)
  | State.lineComment, c :: rest =>
      if c = '\n' then c :: scan State.normal rest
      else scan State.lineComment rest
  | State.blockComment, [c] =>
      if c = '*' then [c] else c :: scan State.blockComment []
  | State.blockComment, c :: d :: rest2 =>
      if c = '*' then
        if d = '/' then c :: d :: scan State.normal rest2
        else c :: scan State.blockComment (d :: rest2)
      else c :: scan State.blockComment (d :: rest2)
  | State.strLit, [c] =>
      if c = '\\' then [c]
      else if c = '"' then c :: scan State.normal []
      else c :: scan State.strLit []
  | State.strLit, c :: d :: rest2 =>
      if c = '\\' then c :: d :: scan State.strLit rest2
      else if c = '"' then c :: scan State.normal (d :: rest2)
      else c :: scan State.strLit (d :: rest2)
  | State.charLit, [c] =>
      if c = '\\' then [c]
      else if c = '\'' then c :: scan State.normal []
      else c :: scan State.charLit []
  | State.charLit, c :: d :: rest2 =>
      if c = '\\' then c :: d :: scan State.charLit rest2
      else if c = '\'' then c :: scan State.normal (d :: rest2)
      else c :: scan State.charLit (d :: rest2)

/-- Companion to `scan`: the state in which the scan loop finishes, or `none`
if the loop ever takes the `state = 'line_comment'` transition (the branch at
lines 35-38 of the source).  Starting inside a line comment also counts as
having entered one. -/
def runState : State → List Char → Option State
  | State.lineComment, _ => none
  | st, [] => some st
  | State.normal, [c] =>
      if c = '/' then some State.normal
      else if c = '"' then runState State.strLit []
      else if c = '\'' then runState State.charLit []
      else runState State.normal []
  | State.normal, c :: d :: rest2 =>
      if c = '/' then
        if d = '/' then none
        else if d = '*' then runState State.blockComment rest2
        else runState State.normal (d :: rest2)
      else if c = '"' then runState State.strLit (d :: rest2)
      else if c = '\'' then runState State.charLit (d :: rest2)
      else runState State.normal (d :: rest2)
  | State.blockComment, [c] =>
      if c = '*' then some State.blockComment else runState State.blockComment []
  | State.blockComment, c :: d :: rest2 =>
      if c = '*' then
        if d = '/' then runState State.normal rest2
        else runState State.blockComment (d :: rest2)
      else runState State.blockComment (d :: rest2)
  | State.strLit, [c] =>
      if c = '\\' then some State.strLit
      else if c = '"' then runState State.normal []
      else runState State.strLit []
  | State.strLit, c :: d :: rest2 =>
      if c = '\\' then runState State.strLit rest2
      else if c = '"' then runState State.normal (d :: rest2)
      else runState State.strLit (d :: rest2)
  | State.charLit, [c] =>
      if c = '\\' then some State.charLit
      else if c = '\'' then runState State.normal []
      else runState State.charLit []
  | State.charLit, c :: d :: rest2 =>
      if c = '\\' then runState State.charLit rest2
      else if c = '\'' then runState State.normal (d :: rest2)
      else runState State.charLit (d :: rest2)

/-- Total companion to `runState`: the state in which the scan loop
finishes, tracking the run through line comments as well.  This mirrors the
value of the source's `state` variable when the loop exits, branch by
branch. -/
def endState : State → List Char → State
  | st, [] => st
  | State.normal, [c] =>
      if c = '/' then State.normal
      else if c = '"' then endState State.strLit []
      else if c = '\'' then endState State.charLit []
      else endState State.normal []
  | State.normal, c :: d :: rest2 =>
      if c = '/' then
        if d = '/' then endState State.lineComment rest2
        else if d = '*' then endState State.blockComment rest2
        else endState State.normal (d :: rest2)
      else if c = '"' then endState State.strLit (d :: rest2)
      else if c = '\'' then endState State.charLit (d :: rest2)
      else endState State.normal (d :: rest2)
  | State.lineComment, c :: rest =>
      if c = '\n' then endState State.normal rest
      else endState State.lineComment rest
  | State.blockComment, [c] =>
      if c = '*' then State.blockComment else endState State.blockComment []
  | State.blockComment, c :: d :: rest2 =>
      if c = '*' then
        if d = '/' then endState State.normal rest2
        else endState State.blockComment (d :: rest2)
      else endState State.blockComment (d :: rest2)
  | State.strLit, [c] =>
      if c = '\\' then State.strLit
      else if c = '"' then endState State.normal []
      else endState State.strLit []
  | State.strLit, c :: d :: rest2 =>
      if c = '\\' then endState State.strLit rest2
      else if c = '"' then endState State.normal (d :: rest2)
      else endState State.strLit (d :: rest2)
  | State.charLit, [c] =>
      if c = '\\' then State.charLit
      else if c = '\'' then endState State.normal []
      else endState State.charLit []
  | State.charLit, c :: d :: rest2 =>
      if c = '\\' then endState State.charLit rest2
      else if c = '\'' then endState State.normal (d :: rest2)
      else endState State.charLit (d :: rest2)

/-- The scan loop with every consumed character kept and tagged by the state
that governs its treatment: the characters of a line-comment run carry the
`lineComment` tag — the two opening marker characters included, since they
belong to the run the scanner discards — and every other character carries
the state in which the loop consumed it.  The branch structure mirrors
`scan` exactly; no character is dropped or duplicated here, only
annotated. -/
def stateTags : State → List Char → List (State × Char)
  | _, [] => []
  | State.normal, [c] =>
      if c = '/' then [(State.normal, c)]
      else if c = '"' then (State.normal, c) :: stateTags State.strLit []
      else if c = '\'' then (State.normal, c) :: stateTags State.charLit []
      else (State.normal, c) :: stateTags State.normal []
  | State.normal, c :: d :: rest2 =>
      if c = '/' then
        if d = '/' then (State.lineComment, c) :: (State.lineComment, d) ::
          stateTags State.lineComment rest2
        else if d = '*' then (State.normal, c) :: (State.normal, d) ::
          stateTags State.blockComment rest2
        else (State.normal, c) :: stateTags State.normal (d :: rest2)
      else if c = '"' then (State.normal, c) :: stateTags State.strLit (d :: rest2)
      else if c = '\'' then (State.normal, c) :: stateTags State.charLit (d :: rest2)
      else (State.normal, c) :: stateTags State.normal (d :: rest2)
  | State.lineComment, c :: rest =>
      if c = '\n' then (State.lineComment, c) :: stateTags State.normal rest
      else (State.lineComment, c) :: stateTags State.lineComment rest
  | State.blockComment, [c] =>
      if c = '*' then [(State.blockComment, c)]
      else (State.blockComment, c) :: stateTags State.blockComment []
  | State.blockComment, c :: d :: rest2 =>
      if c = '*' then
        if d = '/' then (State.blockComment, c) :: (State.blockComment, d) ::
          stateTags State.normal rest2
        else (State.blockComment, c) :: stateTags State.blockComment (d :: rest2)
      else (State.blockComment, c) :: stateTags State.blockComment (d :: rest2)
  | State.strLit, [c] =>
      if c = '\\' then [(State.strLit, c)]
      else if c = '"' then (State.strLit, c) :: stateTags State.normal []
      else (State.strLit, c) :: stateTags State.strLit []
  | State.strLit, c :: d :: rest2 =>
      if c = '\\' then (State.strLit, c) :: (State.strLit, d) ::
        stateTags State.strLit rest2
      else if c = '"' then (State.strLit, c) :: stateTags State.normal (d :: rest2)
      else (State.strLit, c) :: stateTags State.strLit (d :: rest2)
  | State.charLit, [c] =>
      if c = '\\' then [(State.charLit, c)]
      else if c = '\'' then (State.charLit, c) :: stateTags State.normal []
      else (State.charLit, c) :: stateTags State.charLit []
  | State.charLit, c :: d :: rest2 =>
      if c = '\\' then (State.charLit, c) :: (State.charLit, d) ::
        stateTags State.charLit rest2
      else if c = '\'' then (State.charLit, c) :: stateTags State.normal (d :: rest2)
      else (State.charLit, c) :: stateTags State.charLit (d :: rest2)

/-- The characters the scanner discards: exactly those belonging to a
line-comment run (tag `lineComment`), except the newline that closes the
run, which is emitted. -/
def discardedTag (p : State × Char) : Bool :=
  p.1 == State.lineComment && p.2 != '\n'

/-- The characters Python `str.splitlines` treats as line boundaries
(CPython's line-break table): LF, VT, FF, CR, FS, GS, RS, NEL, LINE
SEPARATOR, PARAGRAPH SEPARATOR.  `\r\n` is additionally folded into a single
boundary by `splitlinesAux`. -/
def isLineBreak (c : Char) : Bool :=
  c = '\n' || c = '\x0b' || c = '\x0c' || c = '\r' ||
  c = '\x1c' || c = '\x1d' || c = '\x1e' ||
  c = '\x85' || c = '\u2028' || c = '\u2029'

/-- Python `str.splitlines` (used at line 107 of the source), with the
accumulator holding the current line reversed.  A trailing line terminator
does not open a final empty line, and the empty string yields no lines. -/
def splitlinesAux : List Char → List Char → List (List Char)
  | acc, [] => if acc.isEmpty then [] else [acc.reverse]
  | acc, [c] =>
      if isLineBreak c then acc.reverse :: splitlinesAux [] []
      else splitlinesAux (c :: acc) []
  | acc, c :: d :: rest2 =>
      if c = '\r' then
        if d = '\n' then acc.reverse :: splitlinesAux [] rest2
        else acc.reverse :: splitlinesAux [] (d :: rest2)
      else if isLineBreak c then acc.reverse :: splitlinesAux [] (d :: rest2)
      else splitlinesAux (c :: acc) (d :: rest2)

/-- Python `new_s.splitlines()` from line 107 of the source. -/
def splitlines (s : List Char) : List (List Char) := splitlinesAux [] s

/-- The characters Python `str.rstrip()` (no argument) removes, i.e. the
characters for which `str.isspace()` holds: CPython's whitespace table. -/
def pyIsSpace (c : Char) : Bool :=
  decide ((9 ≤ c.toNat ∧ c.toNat ≤ 13) ∨ (28 ≤ c.toNat ∧ c.toNat ≤ 31) ∨
    c.toNat = 32 ∨ c.toNat = 0x85 ∨ c.toNat = 0xa0 ∨ c.toNat = 0x1680 ∨
    (0x2000 ≤ c.toNat ∧ c.toNat ≤ 0x200a) ∨
    c.toNat = 0x2028 ∨ c.toNat = 0x2029 ∨ c.toNat = 0x202f ∨
    c.toNat = 0x205f ∨ c.toNat = 0x3000)

/-- Python `ln.rstrip()` from line 107 of the source: remove the longest
trailing run of whitespace characters. -/
def rstrip (l : List Char) : List Char := (l.reverse.dropWhile pyIsSpace).reverse

/-- Python `'\n'.join(new_lines) + '\n'` from line 108 of the source. -/
def joinLinesNl : List (List Char) → List Char
  | [] => ['\n']
  | [l] => l ++ ['\n']
  | l :: l2 :: ls => l ++ '\n' :: joinLinesNl (l2 :: ls)

/-- The post-processing pass (lines 106-108 of the source): split into lines,
strip trailing whitespace from each line, rejoin with newlines and append a
final newline. -/
def postpass (t : List Char) : List Char :=
  joinLinesNl ((splitlines t).map rstrip)

/-- The whole transformation applied to the file content (lines 28-108 of the
source): the scan pass starting in state `'normal'`, followed by the
post-processing pass. -/
def stripComments (s : List Char) : List Char :=
  postpass (scan State.normal s)

/-- Modelled from the spec: splitting into lines on the newline character
only (the spec's reading of the post-processing pass, which speaks solely of
splitting on LF), again with Python's treatment of a trailing terminator. -/
def splitNlAux : List Char → List Char → List (List Char)
  | acc, [] => if acc.isEmpty then [] else [acc.reverse]
  | acc, c :: rest =>
      if c = '\n' then acc.reverse :: splitNlAux [] rest
      else splitNlAux (c :: acc) rest

/-- Modelled from the spec: the idealized transformation the idempotence
claim describes for comment-free input, namely the input left unchanged
except that each LF-delimited line loses its trailing whitespace and exactly
one final newline is appended. -/
def specNormalize (s : List Char) : List Char :=
  joinLinesNl ((splitNlAux [] s).map rstrip)

/-- Well-formed body of a quoted literal with closing delimiter `q`: a
backslash is always followed by another character (the pair being consumed
atomically by the scanner), and an unescaped character is neither a backslash
nor the delimiter. -/
def litBody (q : Char) : List Char → Bool
  | [] => true
  | [c] => decide (c ≠ '\\' ∧ c ≠ q)
  | c :: d :: rest2 =>
      if c = '\\' then litBody q rest2
      else decide (c ≠ q) && litBody q (d :: rest2)

/-- Characters that never begin a state transition or a two-character
lookahead of the scanner, in any state: everything except the comment and
literal delimiters and the backslash. -/
def nonTrigger (c : Char) : Bool :=
  !(c = '/' || c = '*' || c = '"' || c = '\'' || c = '\\')

/-- Whether the two-character terminator `*/` occurs (contiguously) somewhere
in the list. -/
def hasStarSlash : List Char → Bool
  | [] => false
  | [_] => false
  | c :: d :: rest2 => (c = '*' && d = '/') || hasStarSlash (d :: rest2)

/-- One iteration of the Python `while i < length` loop (lines 32-102 of the
source), phrased on the scan index exactly as the source phrases it: given
the full text `s`, the current state and the current index `i`, it returns
the state after the iteration, the index after the iteration (`i` incremented
by 1 or 2) and the characters the iteration appends to `out_chars`.  The
`let c := ...` mirrors `c = s[i]`, which the loop guard keeps in bounds. -/
def loopStep (s : List Char) (st : State) (i : Nat) : State × Nat × List Char :=
  let c := s.getD i ' '
  match st with
  | State.normal =>
      if c = '/' ∧ s.get? (i + 1) = some '/' then (State.lineComment, i + 2, [])
      else if c = '/' ∧ s.get? (i + 1) = some '*' then
        (State.blockComment, i + 2, ['/', '*'])
      else if c = '"' then (State.strLit, i + 1, [c])
      else if c = '\'' then (State.charLit, i + 1, [c])
      else (State.normal, i + 1, [c])
  | State.lineComment =>
      if c = '\n' then (State.normal, i + 1, [c]) else (State.lineComment, i + 1, [])
  | State.blockComment =>
      if c = '*' ∧ s.get? (i + 1) = some '/' then (State.normal, i + 2, ['*', '/'])
      else (State.blockComment, i + 1, [c])
  | State.strLit =>
      if c = '\\' ∧ i + 1 < s.length then (State.strLit, i + 2, [c, s.getD (i + 1) ' '])
      else if c = '"' then (State.normal, i + 1, [c])
      else (State.strLit, i + 1, [c])
  | State.charLit =>
      if c = '\\' ∧ i + 1 < s.length then (State.charLit, i + 2, [c, s.getD (i + 1) ' '])
      else if c = '\'' then (State.normal, i + 1, [c])
      else (State.charLit, i + 1, [c])

/-- The whole Python `while i < length` loop, iterating `loopStep` from index
`i` and concatenating everything appended to `out_chars`; terminates because
every iteration advances the index (proved inline). -/
def loopRun (s : List Char) (st : State) (i : Nat) : List Char :=
  if h : i < s.length then
    (loopStep s st i).2.2 ++ loopRun s (loopStep s st i).1 (loopStep s st i).2.1
  else []
termination_by s.length - i
decreasing_by
  have hadv : i < (loopStep s st i).2.1 := by
    cases st <;> simp only [loopStep] <;> split_ifs <;> simp <;> omega
  omega

/-- Outcome of one run of the driver script: the exit status, the messages
printed, and whether the backup file respectively the target file were
written.  `exitCode 0` models falling off the end of the script. -/
structure DriverOutcome where
  exitCode : Nat
  printed : List (List Char)
  backupCreated : Bool
  fileWritten : Bool
deriving DecidableEq, Repr

/-- The usage message printed at line 13 of the source. -/
def usageMsg : List Char := "Usage: strip_comments.py <file>".toList

/-- The message printed at line 18 of the source for a missing path `p`. -/
def notFoundMsg (p : List Char) : List Char := "File not found: ".toList ++ p

/-- The message printed at line 22 of the source; the backup path
`p.with_suffix(p.suffix + ".bak")` appends `.bak` to the path. -/
def creatingBackupMsg (p : List Char) : List Char :=
  "Creating backup: ".toList ++ p ++ ".bak".toList

/-- The message printed at line 110 of the source. -/
def writingMsg (p : List Char) : List Char := "Writing cleaned file: ".toList ++ p

/-- The driver glue (lines 12-23 and 110-112 of the source): check that an
argument is present (`sys.exit(1)` otherwise), check that the path exists
(`sys.exit(2)` otherwise), then create the backup, transform and overwrite.
`argv` is the full argument vector including the script name, and
`pathExists` abstracts the file-system query `p.exists()`. -/
def runDriver (argv : List (List Char)) (pathExists : List Char → Bool) : DriverOutcome :=
  if argv.length < 2 then ⟨1, [usageMsg], false, false⟩
  else
    let p := argv.getD 1 []
    if pathExists p then
      ⟨0, [creatingBackupMsg p, writingMsg p, "Done.".toList], true, true⟩
    else ⟨2, [notFoundMsg p], false, false⟩

/-!  Behaviour of the scan pass in the `line_comment` state. -/

theorem scan_lineComment_of_no_nl {body : List Char} (h : '\n' ∉ body) :
    scan State.lineComment body = [] := by
  induction body with
  | nil => simp [scan]
  | cons c b ih =>
      rw [List.mem_cons] at h
      push_neg at h
      simp [scan, Ne.symm h.1, ih h.2]

theorem scan_lineComment_append_nl {body : List Char} (rest : List Char)
    (h : '\n' ∉ body) :
    scan State.lineComment (body ++ '\n' :: rest) = '\n' :: scan State.normal rest := by
  induction body with
  | nil => simp [scan]
  | cons c b ih =>
      rw [List.mem_cons] at h
      push_neg at h
      simp [scan, Ne.symm h.1, ih h.2]

/-!  Behaviour of the scan pass inside string and char literals. -/

theorem scan_strLit_append {body : List Char} (t : List Char)
    (h : litBody '"' body = true) :
    scan State.strLit (body ++ t) = body ++ scan State.strLit t := by
  induction body using litBody.induct '"' with
  | case1 => simp
  | case2 c =>
      simp only [litBody, decide_eq_true_eq] at h
      cases t with
      | nil => simp [scan, h.1, h.2]
      | cons e t' => simp [scan, h.1, h.2]
  | case3 d rest2 ih =>
      simp only [litBody, if_pos rfl] at h
      simp [scan, ih h]
  | case4 c d rest2 hc ih =>
      simp only [litBody, if_neg hc, Bool.and_eq_true, decide_eq_true_eq] at h
      simp only [List.cons_append, scan, if_neg hc, if_neg h.1]
      simpa using ih h.2

theorem scan_charLit_append {body : List Char} (t : List Char)
    (h : litBody '\'' body = true) :
    scan State.charLit (body ++ t) = body ++ scan State.charLit t := by
  induction body using litBody.induct '\'' with
  | case1 => simp
  | case2 c =>
      simp only [litBody, decide_eq_true_eq] at h
      cases t with
      | nil => simp [scan, h.1, h.2]
      | cons e t' => simp [scan, h.1, h.2]
  | case3 d rest2 ih =>
      simp only [litBody, if_pos rfl] at h
      simp [scan, ih h]
  | case4 c d rest2 hc ih =>
      simp only [litBody, if_neg hc, Bool.and_eq_true, decide_eq_true_eq] at h
      simp only [List.cons_append, scan, if_neg hc, if_neg h.1]
      simpa using ih h.2

/-!  Behaviour of the scan pass inside block comments. -/

theorem scan_blockComment_append {body : List Char} (rest : List Char)
    (h : hasStarSlash body = false) :
    scan State.blockComment (body ++ '*' :: '/' :: rest) =
      body ++ '*' :: '/' :: scan State.normal rest := by
  induction body with
  | nil => simp [scan]
  | cons c b ih =>
      cases b with
      | nil =>
          by_cases hc : c = '*'
          · subst hc
            simp only [hasStarSlash] at h
            simp [scan]
          · simp [scan, hc]
      | cons e b' =>
          rw [show (c :: e :: b') ++ '*' :: '/' :: rest =
                c :: ((e :: b') ++ '*' :: '/' :: rest) from rfl]
          simp only [hasStarSlash, Bool.or_eq_false_iff, Bool.and_eq_false_iff,
            decide_eq_false_iff_not] at h
          by_cases hc : c = '*'
          · subst hc
            have he : ¬e = '/' := by
              rcases h.1 with h1 | h1
              · exact absurd rfl h1
              · exact h1
            simp only [List.cons_append, scan, if_pos rfl, if_neg he]
            simpa using ih h.2
          · simp only [List.cons_append, scan, if_neg hc]
            simpa using ih h.2

/-!  Global structural facts about the scan pass. -/

theorem scan_sublist (st : State) (s : List Char) : (scan st s).Sublist s := by
  induction st, s using scan.induct <;> simp_all [scan]

theorem scan_count_nl (st : State) (s : List Char) :
    (scan st s).count '\n' = s.count '\n' := by
  induction st, s using scan.induct <;> simp_all [scan, List.count_cons]

theorem scan_eq_self_of_runState {st : State} {s : List Char}
    (h : (runState st s).isSome) : scan st s = s := by
  induction st, s using runState.induct <;> simp_all [scan, runState]

/-!  Characters that trigger no transition are transparent to the scanner. -/

theorem nonTrigger_spec {c : Char} (h : nonTrigger c = true) :
    ¬c = '/' ∧ ¬c = '*' ∧ ¬c = '"' ∧ ¬c = '\'' ∧ ¬c = '\\' := by
  simp only [nonTrigger, Bool.not_eq_true', Bool.or_eq_false_iff,
    decide_eq_false_iff_not] at h
  obtain ⟨⟨⟨⟨h1, h2⟩, h3⟩, h4⟩, h5⟩ := h
  exact ⟨h1, h2, h3, h4, h5⟩

theorem runState_cons_nonTrigger {c : Char} (h : nonTrigger c = true)
    (st : State) (u : List Char) : runState st (c :: u) = runState st u := by
  obtain ⟨h1, h2, h3, h4, h5⟩ := nonTrigger_spec h
  cases st <;> cases u <;> simp [runState, h1, h2, h3, h4, h5]

theorem runState_nonTrigger_append {l : List Char} (t : List Char)
    (h : ∀ c ∈ l, nonTrigger c = true) (st : State) :
    runState st (l ++ t) = runState st t := by
  induction l generalizing st with
  | nil => rfl
  | cons c l' ih =>
      rw [List.cons_append, runState_cons_nonTrigger (h c (by simp))]
      exact ih (fun e he => h e (by simp [he])) st

theorem scan_cons_nonTrigger {c : Char} (h : nonTrigger c = true)
    {st : State} (hst : st ≠ State.lineComment) (u : List Char) :
    scan st (c :: u) = c :: scan st u := by
  obtain ⟨h1, h2, h3, h4, h5⟩ := nonTrigger_spec h
  cases st <;> first
  | exact absurd rfl hst
  | cases u <;> simp [scan, h1, h2, h3, h4, h5]

theorem scan_normal_quote (u : List Char) :
    scan State.normal ('"' :: u) = '"' :: scan State.strLit u := by
  cases u <;> simp [scan]

theorem scan_normal_apos (u : List Char) :
    scan State.normal ('\'' :: u) = '\'' :: scan State.charLit u := by
  cases u <;> simp [scan]

theorem scan_strLit_close (u : List Char) :
    scan State.strLit ('"' :: u) = '"' :: scan State.normal u := by
  cases u <;> simp [scan]

theorem scan_charLit_close (u : List Char) :
    scan State.charLit ('\'' :: u) = '\'' :: scan State.normal u := by
  cases u <;> simp [scan]

/-!  The run of the scanner decomposes at every newline: a lookahead pair
never starts at a newline, so the machine can be stopped and restarted right
after one. -/

theorem runState_split_nl_aux :
    ∀ (n : Nat) (a : List Char), a.length ≤ n → ∀ (st : State) (b : List Char),
      runState st (a ++ '\n' :: b) =
        (runState st (a ++ ['\n'])).bind fun st' => runState st' b := by
  intro n
  induction n with
  | zero =>
      intro a ha st b
      have hnil : a = [] := by
        cases a with
        | nil => rfl
        | cons c r => simp at ha
      subst hnil
      cases st <;> cases b <;> simp [runState]
  | succ n ih =>
      intro a ha st b
      have hnl : nonTrigger '\n' = true := by decide
      rcases a with _ | ⟨c, _ | ⟨d, a''⟩⟩
      · cases st <;> cases b <;> simp [runState]
      · cases st with
        | lineComment => simp [runState]
        | normal =>
            by_cases h1 : c = '/'
            · subst h1; simp [runState, runState_cons_nonTrigger hnl]
            · by_cases h3 : c = '"'
              · subst h3; simp [runState, runState_cons_nonTrigger hnl]
              · by_cases h4 : c = '\''
                · subst h4; simp [runState, runState_cons_nonTrigger hnl]
                · simp [runState, h1, h3, h4, runState_cons_nonTrigger hnl]
        | blockComment =>
            by_cases h2 : c = '*'
            · subst h2; simp [runState, runState_cons_nonTrigger hnl]
            · simp [runState, h2, runState_cons_nonTrigger hnl]
        | strLit =>
            by_cases h5 : c = '\\'
            · subst h5; simp [runState, runState_cons_nonTrigger hnl]
            · by_cases h3 : c = '"'
              · subst h3; simp [runState, runState_cons_nonTrigger hnl]
              · simp [runState, h5, h3, runState_cons_nonTrigger hnl]
        | charLit =>
            by_cases h5 : c = '\\'
            · subst h5; simp [runState, runState_cons_nonTrigger hnl]
            · by_cases h4 : c = '\''
              · subst h4; simp [runState, runState_cons_nonTrigger hnl]
              · simp [runState, h5, h4, runState_cons_nonTrigger hnl]
      · simp only [List.length_cons] at ha
        have ha1 : (d :: a'').length ≤ n := by simp only [List.length_cons]; omega
        have ha2 : a''.length ≤ n := by omega
        cases st with
        | lineComment => simp [runState]
        | normal =>
            simp only [List.cons_append, runState]
            split_ifs <;>
              first
              | (simp; done)
              | exact ih a'' ha2 _ b
              | simpa using ih (d :: a'') ha1 _ b
        | blockComment =>
            simp only [List.cons_append, runState]
            split_ifs <;>
              first
              | (simp; done)
              | exact ih a'' ha2 _ b
              | simpa using ih (d :: a'') ha1 _ b
        | strLit =>
            simp only [List.cons_append, runState]
            split_ifs <;>
              first
              | (simp; done)
              | exact ih a'' ha2 _ b
              | simpa using ih (d :: a'') ha1 _ b
        | charLit =>
            simp only [List.cons_append, runState]
            split_ifs <;>
              first
              | (simp; done)
              | exact ih a'' ha2 _ b
              | simpa using ih (d :: a'') ha1 _ b

theorem runState_split_nl (a : List Char) (st : State) (b : List Char) :
    runState st (a ++ '\n' :: b) =
      (runState st (a ++ ['\n'])).bind fun st' => runState st' b :=
  runState_split_nl_aux a.length a le_rfl st b

/-!  Appending a final newline cannot make the scanner enter a line comment. -/

theorem runState_snoc_nl_aux :
    ∀ (n : Nat) (a : List Char), a.length ≤ n → ∀ (st : State),
      (runState st a).isSome = true → (runState st (a ++ ['\n'])).isSome = true := by
  intro n
  induction n with
  | zero =>
      intro a ha st h
      have hnil : a = [] := by
        cases a with
        | nil => rfl
        | cons c r => simp at ha
      subst hnil
      cases st <;> simp_all [runState]
  | succ n ih =>
      intro a ha st h
      rcases a with _ | ⟨c, _ | ⟨d, a''⟩⟩
      · cases st <;> simp_all [runState]
      · cases st with
        | lineComment => simp_all [runState]
        | normal =>
            by_cases h1 : c = '/'
            · subst h1; simp [runState]
            · by_cases h3 : c = '"'
              · subst h3; simp [runState]
              · by_cases h4 : c = '\''
                · subst h4; simp [runState]
                · simp [runState, h1, h3, h4]
        | blockComment =>
            by_cases h2 : c = '*'
            · subst h2; simp [runState]
            · simp [runState, h2]
        | strLit =>
            by_cases h5 : c = '\\'
            · subst h5; simp [runState]
            · by_cases h3 : c = '"'
              · subst h3; simp [runState]
              · simp [runState, h5, h3]
        | charLit =>
            by_cases h5 : c = '\\'
            · subst h5; simp [runState]
            · by_cases h4 : c = '\''
              · subst h4; simp [runState]
              · simp [runState, h5, h4]
      · simp only [List.length_cons] at ha
        have ha1 : (d :: a'').length ≤ n := by simp only [List.length_cons]; omega
        have ha2 : a''.length ≤ n := by omega
        cases st with
        | lineComment => simp_all [runState]
        | normal =>
            simp only [List.cons_append, runState] at h ⊢
            split_ifs at h ⊢ <;>
              first
              | (simp_all; done)
              | exact ih a'' ha2 _ h
              | simpa using ih (d :: a'') ha1 _ h
        | blockComment =>
            simp only [List.cons_append, runState] at h ⊢
            split_ifs at h ⊢ <;>
              first
              | (simp_all; done)
              | exact ih a'' ha2 _ h
              | simpa using ih (d :: a'') ha1 _ h
        | strLit =>
            simp only [List.cons_append, runState] at h ⊢
            split_ifs at h ⊢ <;>
              first
              | (simp_all; done)
              | exact ih a'' ha2 _ h
              | simpa using ih (d :: a'') ha1 _ h
        | charLit =>
            simp only [List.cons_append, runState] at h ⊢
            split_ifs at h ⊢ <;>
              first
              | (simp_all; done)
              | exact ih a'' ha2 _ h
              | simpa using ih (d :: a'') ha1 _ h

theorem runState_snoc_nl {a : List Char} {st : State}
    (h : (runState st a).isSome = true) :
    (runState st (a ++ ['\n'])).isSome = true :=
  runState_snoc_nl_aux a.length a le_rfl st h

/-!  Dropping a run of transition-free characters just before a newline does
not change the outcome of the scan: the newline takes over the role the
dropped characters played (in particular as the second half of an escape
pair). -/

theorem runState_ws_nl_aux :
    ∀ (n : Nat) (core : List Char), core.length ≤ n →
      ∀ (ws : List Char), (∀ c ∈ ws, nonTrigger c = true) → ∀ (st : State),
        runState st (core ++ ws ++ ['\n']) = runState st (core ++ ['\n']) := by
  intro n
  induction n with
  | zero =>
      intro core hcore ws hws st
      have hnil : core = [] := by
        cases core with
        | nil => rfl
        | cons c r => simp at hcore
      subst hnil
      simpa using runState_nonTrigger_append ['\n'] hws st
  | succ n ih =>
      intro core hcore ws hws st
      rcases core with _ | ⟨c, _ | ⟨d, core''⟩⟩
      · simpa using runState_nonTrigger_append ['\n'] hws st
      · rcases ws with _ | ⟨w, ws'⟩
        · simp
        · have hcw : nonTrigger w = true := hws w (by simp)
          obtain ⟨hw1, hw2, hw3, hw4, hw5⟩ := nonTrigger_spec hcw
          have hws' : ∀ e ∈ ws', nonTrigger e = true :=
            fun e he => hws e (by simp [he])
          have key : ∀ st2, runState st2 (ws' ++ ['\n']) = runState st2 ['\n'] :=
            fun st2 => runState_nonTrigger_append ['\n'] hws' st2
          have keyw : ∀ st2 u, runState st2 (w :: u) = runState st2 u :=
            fun st2 u => runState_cons_nonTrigger hcw st2 u
          cases st with
          | lineComment => simp [runState]
          | normal =>
              by_cases h1 : c = '/'
              · subst h1; simp [runState, hw1, hw2, key, keyw]
              · by_cases h3 : c = '"'
                · subst h3; simp [runState, hw5, hw3, key, keyw]
                · by_cases h4 : c = '\''
                  · subst h4; simp [runState, hw5, hw4, key, keyw]
                  · simp [runState, h1, h3, h4, hw1, hw3, hw4, hw5, key, keyw]
          | blockComment =>
              by_cases h2 : c = '*'
              · subst h2; simp [runState, hw1, hw2, key, keyw]
              · simp [runState, h2, hw2, hw1, key, keyw]
          | strLit =>
              by_cases h5 : c = '\\'
              · subst h5; simp [runState, key, keyw]
              · by_cases h3 : c = '"'
                · subst h3; simp [runState, hw5, hw3, key, keyw]
                · simp [runState, h5, h3, hw5, hw3, key, keyw]
          | charLit =>
              by_cases h5 : c = '\\'
              · subst h5; simp [runState, key, keyw]
              · by_cases h4 : c = '\''
                · subst h4; simp [runState, hw5, hw4, key, keyw]
                · simp [runState, h5, h4, hw5, hw4, key, keyw]
      · simp only [List.length_cons] at hcore
        have ha1 : (d :: core'').length ≤ n := by simp only [List.length_cons]; omega
        have ha2 : core''.length ≤ n := by omega
        cases st with
        | lineComment => simp [runState]
        | normal =>
            simp only [List.cons_append, runState]
            split_ifs <;>
              first
              | rfl
              | exact ih core'' ha2 ws hws _
              | simpa using ih (d :: core'') ha1 ws hws _
        | blockComment =>
            simp only [List.cons_append, runState]
            split_ifs <;>
              first
              | rfl
              | exact ih core'' ha2 ws hws _
              | simpa using ih (d :: core'') ha1 ws hws _
        | strLit =>
            simp only [List.cons_append, runState]
            split_ifs <;>
              first
              | rfl
              | exact ih core'' ha2 ws hws _
              | simpa using ih (d :: core'') ha1 ws hws _
        | charLit =>
            simp only [List.cons_append, runState]
            split_ifs <;>
              first
              | rfl
              | exact ih core'' ha2 ws hws _
              | simpa using ih (d :: core'') ha1 ws hws _

theorem runState_ws_nl {core : List Char} (ws : List Char)
    (hws : ∀ c ∈ ws, nonTrigger c = true) (st : State) :
    runState st (core ++ ws ++ ['\n']) = runState st (core ++ ['\n']) :=
  runState_ws_nl_aux core.length core le_rfl ws hws st

/-!  Elementary properties of `rstrip`. -/

theorem rstrip_idem (l : List Char) : rstrip (rstrip l) = rstrip l := by
  simp [rstrip, List.dropWhile_idempotent]

theorem mem_rstrip {c : Char} {l : List Char} (h : c ∈ rstrip l) : c ∈ l := by
  simp only [rstrip, List.mem_reverse] at h
  exact List.mem_reverse.mp (List.Sublist.mem h (List.dropWhile_sublist pyIsSpace))

theorem rstrip_decomp (l : List Char) :
    ∃ ws, l = rstrip l ++ ws ∧ ∀ c ∈ ws, pyIsSpace c = true := by
  refine ⟨(l.reverse.takeWhile pyIsSpace).reverse, ?_, ?_⟩
  · have h1 : l = (l.reverse.takeWhile pyIsSpace ++ l.reverse.dropWhile pyIsSpace).reverse := by
      rw [List.takeWhile_append_dropWhile, List.reverse_reverse]
    rw [List.reverse_append] at h1
    exact h1
  · intro c hc
    rw [List.mem_reverse] at hc
    exact List.mem_takeWhile_imp hc

theorem rstrip_append_singleton {c : Char} (a : List Char)
    (h : pyIsSpace c = false) : rstrip (a ++ [c]) = a ++ [c] := by
  simp [rstrip, List.dropWhile_cons, h]

theorem rstrip_append_cons {c : Char} (a b : List Char)
    (h : pyIsSpace c = false) : rstrip (a ++ c :: b) = a ++ c :: rstrip b := by
  simp only [rstrip, List.reverse_append, List.reverse_cons, List.append_assoc,
    List.dropWhile_append]
  by_cases hb : (b.reverse.dropWhile pyIsSpace).isEmpty
  · simp [hb, List.dropWhile_cons, h, List.isEmpty_iff.mp hb]
  · simp [hb]

theorem pyIsSpace_nonTrigger {c : Char} (h : pyIsSpace c = true) :
    nonTrigger c = true := by
  simp only [nonTrigger, Bool.not_eq_true', Bool.or_eq_false_iff,
    decide_eq_false_iff_not]
  refine ⟨⟨⟨⟨?_, ?_⟩, ?_⟩, ?_⟩, ?_⟩ <;>
    rintro rfl <;> simp [pyIsSpace] at h

/-!  Lines produced by `splitlines` contain no line-break characters. -/

theorem splitlinesAux_break_free :
    ∀ (acc s : List Char), (∀ c ∈ acc, isLineBreak c = false) →
      ∀ l ∈ splitlinesAux acc s, ∀ c ∈ l, isLineBreak c = false := by
  intro acc s
  induction acc, s using splitlinesAux.induct with
  | case1 acc hemp =>
      intro hacc l hl
      simp [splitlinesAux, hemp] at hl
  | case2 acc hemp =>
      intro hacc l hl
      simp [splitlinesAux, hemp] at hl
      subst hl
      intro c hc
      exact hacc c (by simpa using hc)
  | case3 acc c hbr ih =>
      intro hacc l hl
      simp only [splitlinesAux, hbr, if_pos] at hl
      rcases List.mem_cons.mp hl with rfl | hl
      · intro e he
        exact hacc e (by simpa using he)
      · simp [splitlinesAux] at hl
  | case4 acc c hbr ih =>
      intro hacc l hl
      rw [show splitlinesAux acc [c] = splitlinesAux (c :: acc) [] from by
        simp [splitlinesAux, hbr]] at hl
      refine ih ?_ l hl
      intro e he
      rcases List.mem_cons.mp he with rfl | he
      · simpa using hbr
      · exact hacc e he
  | case5 acc rest2 ih =>
      intro hacc l hl
      rw [show splitlinesAux acc ('\x0d' :: '
' :: rest2) =
        acc.reverse :: splitlinesAux [] rest2 from by simp [splitlinesAux]] at hl
      rcases List.mem_cons.mp hl with rfl | hl
      · intro e he
        exact hacc e (by simpa using he)
      · exact ih (by simp) l hl
  | case6 acc d rest2 hd ih =>
      intro hacc l hl
      rw [show splitlinesAux acc ('\x0d' :: d :: rest2) =
        acc.reverse :: splitlinesAux [] (d :: rest2) from by
          simp [splitlinesAux, hd]] at hl
      rcases List.mem_cons.mp hl with rfl | hl
      · intro e he
        exact hacc e (by simpa using he)
      · exact ih (by simp) l hl
  | case7 acc c d rest2 hc hbr ih =>
      intro hacc l hl
      rw [show splitlinesAux acc (c :: d :: rest2) =
        acc.reverse :: splitlinesAux [] (d :: rest2) from by
          simp [splitlinesAux, hc, hbr]] at hl
      rcases List.mem_cons.mp hl with rfl | hl
      · intro e he
        exact hacc e (by simpa using he)
      · exact ih (by simp) l hl
  | case8 acc c d rest2 hc hbr ih =>
      intro hacc l hl
      rw [show splitlinesAux acc (c :: d :: rest2) =
        splitlinesAux (c :: acc) (d :: rest2) from by
          simp [splitlinesAux, hc, hbr]] at hl
      refine ih ?_ l hl
      intro e he
      rcases List.mem_cons.mp he with rfl | he
      · simpa using hbr
      · exact hacc e he

/-!  Structure of `splitlines` on newline-separated text. -/

theorem splitlinesAux_nl (acc t : List Char) :
    splitlinesAux acc ('\n' :: t) = acc.reverse :: splitlinesAux [] t := by
  cases t <;> simp [splitlinesAux, isLineBreak]

theorem splitlinesAux_cons_of_not_break {c : Char} (h : isLineBreak c = false)
    (acc t : List Char) : splitlinesAux acc (c :: t) = splitlinesAux (c :: acc) t := by
  have hr : ¬c = '\x0d' := by
    rintro rfl
    simp [isLineBreak] at h
  cases t <;> simp [splitlinesAux, h, hr]

theorem splitlinesAux_append_of_break_free {l : List Char}
    (hl : ∀ c ∈ l, isLineBreak c = false) (acc rest : List Char) :
    splitlinesAux acc (l ++ rest) = splitlinesAux (l.reverse ++ acc) rest := by
  induction l generalizing acc with
  | nil => simp
  | cons c l' ih =>
      rw [List.cons_append, splitlinesAux_cons_of_not_break (hl c (by simp)),
        ih (fun e he => hl e (by simp [he]))]
      simp

theorem splitlinesAux_ne_nil : ∀ (acc s : List Char), acc ≠ [] →
    splitlinesAux acc s ≠ [] := by
  intro acc s
  induction acc, s using splitlinesAux.induct with
  | case1 acc hemp =>
      intro h
      exact absurd (List.isEmpty_iff.mp hemp) h
  | case2 acc hemp => intro h; simp [splitlinesAux, hemp]
  | case3 acc c hbr ih => intro h; simp [splitlinesAux, hbr]
  | case4 acc c hbr ih =>
      intro h
      rw [show splitlinesAux acc [c] = splitlinesAux (c :: acc) [] from by
        simp [splitlinesAux, hbr]]
      exact ih (by simp)
  | case5 acc rest2 ih => intro h; simp [splitlinesAux]
  | case6 acc d rest2 hd ih => intro h; simp [splitlinesAux, hd]
  | case7 acc c d rest2 hc hbr ih => intro h; simp [splitlinesAux, hc, hbr]
  | case8 acc c d rest2 hc hbr ih =>
      intro h
      rw [show splitlinesAux acc (c :: d :: rest2) =
        splitlinesAux (c :: acc) (d :: rest2) from by simp [splitlinesAux, hc, hbr]]
      exact ih (by simp)

theorem splitlines_eq_nil_iff (s : List Char) : splitlines s = [] ↔ s = [] := by
  constructor
  · intro h
    cases s with
    | nil => rfl
    | cons c rest =>
        exfalso
        by_cases hbr : isLineBreak c = true
        · cases rest with
          | nil => simp [splitlines, splitlinesAux, hbr] at h
          | cons d r =>
              by_cases hc : c = '\x0d'
              · subst hc
                by_cases hd : d = '\n' <;>
                  simp [splitlines, splitlinesAux, hd] at h
              · simp [splitlines, splitlinesAux, hc, hbr] at h
        · rw [splitlines, splitlinesAux_cons_of_not_break
            (Bool.not_eq_true _ ▸ hbr)] at h
          exact splitlinesAux_ne_nil [c] rest (by simp) h
  · rintro rfl; rfl

theorem joinLinesNl_cons_of_ne_nil {L : List (List Char)} (hL : L ≠ [])
    (x : List Char) : joinLinesNl (x :: L) = x ++ '\n' :: joinLinesNl L := by
  cases L with
  | nil => exact absurd rfl hL
  | cons y ys => simp [joinLinesNl]

/-- Rebuilding the lines produced by `splitlines` with `joinLinesNl` returns
the original text, possibly with one newline appended (when the text was
empty or did not end with a newline); this holds whenever the only
line-break character occurring in the text is the newline itself. -/
theorem joinLinesNl_splitlinesAux (s : List Char) :
    ∀ acc, (∀ c ∈ s, isLineBreak c = true → c = '\n') →
      joinLinesNl (splitlinesAux acc s) = acc.reverse ++ s ∨
      joinLinesNl (splitlinesAux acc s) = acc.reverse ++ s ++ ['\n'] := by
  induction s with
  | nil =>
      intro acc h
      by_cases hemp : acc.isEmpty
      · right
        simp [splitlinesAux, hemp, joinLinesNl, List.isEmpty_iff.mp hemp]
      · right
        simp [splitlinesAux, hemp, joinLinesNl]
  | cons c rest ih =>
      intro acc h
      by_cases hbr : isLineBreak c = true
      · have hc : c = '\n' := h c (by simp) hbr
        subst hc
        rw [splitlinesAux_nl]
        by_cases hrest : rest = []
        · subst hrest
          left
          simp [splitlinesAux, joinLinesNl]
        · have hne : splitlinesAux [] rest ≠ [] := fun hh =>
            hrest ((splitlines_eq_nil_iff rest).mp hh)
          rw [joinLinesNl_cons_of_ne_nil hne]
          rcases ih [] (fun e he hb => h e (by simp [he]) hb) with h1 | h1 <;>
            rw [h1]
          · left; simp
          · right; simp
      · rw [splitlinesAux_cons_of_not_break (Bool.not_eq_true _ ▸ hbr)]
        rcases ih (c :: acc) (fun e he hb => h e (by simp [he]) hb) with h1 | h1 <;>
          rw [h1]
        · left; simp
        · right; simp

/-- `splitlines` is a retraction of `joinLinesNl` on nonempty lists of
break-free lines. -/
theorem splitlines_joinLinesNl : ∀ (L : List (List Char)), L ≠ [] →
    (∀ l ∈ L, ∀ c ∈ l, isLineBreak c = false) →
    splitlines (joinLinesNl L) = L := by
  intro L
  induction L with
  | nil => intro h; exact absurd rfl h
  | cons l L' ih =>
      intro _ hbf
      cases L' with
      | nil =>
          show splitlines (l ++ ['\n']) = [l]
          rw [splitlines, splitlinesAux_append_of_break_free (hbf l (by simp)),
            List.append_nil, splitlinesAux_nl]
          simp [splitlinesAux]
      | cons m L'' =>
          rw [joinLinesNl_cons_of_ne_nil (by simp), splitlines,
            splitlinesAux_append_of_break_free (hbf l (by simp)),
            List.append_nil, splitlinesAux_nl, List.reverse_reverse]
          rw [show splitlinesAux [] (joinLinesNl (m :: L'')) =
            splitlines (joinLinesNl (m :: L'')) from rfl]
          rw [ih (by simp) (fun e he => hbf e (by simp [he]))]

/-!  The newline count of the joined output. -/

theorem count_joinLinesNl_map_rstrip (L : List (List Char))
    (hL : ∀ l ∈ L, '\n' ∉ l) :
    (joinLinesNl (L.map rstrip)).count '\n' = (joinLinesNl L).count '\n' := by
  induction L with
  | nil => rfl
  | cons l L' ih =>
      have h1 : l.count '\n' = 0 := List.count_eq_zero.mpr (hL l (by simp))
      have h2 : (rstrip l).count '\n' = 0 :=
        List.count_eq_zero.mpr fun hc => (hL l (by simp)) (mem_rstrip hc)
      cases L' with
      | nil => simp [joinLinesNl, List.count_append, h1, h2]
      | cons m L'' =>
          rw [List.map_cons, joinLinesNl_cons_of_ne_nil (by simp),
            joinLinesNl_cons_of_ne_nil (List.cons_ne_nil m L''), List.count_append,
            List.count_append, List.count_cons, List.count_cons, h1, h2,
            ih (fun e he => hL e (by simp [he]))]

/-!  Stripping trailing whitespace from every line does not change the course
of the scanner on the joined text. -/

theorem runState_joinLinesNl_map_rstrip (L : List (List Char)) (st : State) :
    runState st (joinLinesNl (L.map rstrip)) = runState st (joinLinesNl L) := by
  induction L generalizing st with
  | nil => rfl
  | cons l L' ih =>
      obtain ⟨ws, hdecomp, hws⟩ := rstrip_decomp l
      have hwsNT : ∀ c ∈ ws, nonTrigger c = true :=
        fun c hc => pyIsSpace_nonTrigger (hws c hc)
      have hfirst : runState st (rstrip l ++ ['\n']) = runState st (l ++ ['\n']) := by
        conv_rhs => rw [hdecomp]
        exact (runState_ws_nl ws hwsNT st).symm
      cases L' with
      | nil => exact hfirst
      | cons m L'' =>
          have hL := runState_split_nl (rstrip l) st
            (joinLinesNl (List.map rstrip (m :: L'')))
          have hR := runState_split_nl l st (joinLinesNl (m :: L''))
          rw [List.map_cons, joinLinesNl_cons_of_ne_nil (by simp),
            joinLinesNl_cons_of_ne_nil (List.cons_ne_nil m L''), hL, hR, hfirst]
          congr 1
          funext st'
          exact ih st'

/-!  The post-processing pass is idempotent. -/

theorem postpass_break_free (t : List Char) :
    ∀ l ∈ (splitlines t).map rstrip, ∀ c ∈ l, isLineBreak c = false := by
  intro l hl c hc
  rw [List.mem_map] at hl
  obtain ⟨m, hm, rfl⟩ := hl
  exact splitlinesAux_break_free [] t (by simp) m hm c (mem_rstrip hc)

theorem postpass_idem (t : List Char) : postpass (postpass t) = postpass t := by
  by_cases h0 : splitlines t = []
  · have ht : t = [] := (splitlines_eq_nil_iff t).mp h0
    subst ht
    decide
  · have hne : (splitlines t).map rstrip ≠ [] := by
      simpa using h0
    rw [postpass, postpass,
      splitlines_joinLinesNl ((splitlines t).map rstrip) hne (postpass_break_free t),
      List.map_map]
    have : rstrip ∘ rstrip = rstrip := funext rstrip_idem
    rw [this]

/-!  Assembly: the post-processed text is again comment-free, and scanning it
changes nothing. -/

theorem stripComments_eq_postpass {s : List Char}
    (h1 : (runState State.normal s).isSome = true) :
    stripComments s = postpass s := by
  rw [stripComments, scan_eq_self_of_runState h1]

theorem runState_postpass {s : List Char}
    (h1 : (runState State.normal s).isSome = true)
    (h2 : ∀ c ∈ s, isLineBreak c = true → c = '\n') :
    (runState State.normal (postpass s)).isSome = true := by
  rw [postpass, runState_joinLinesNl_map_rstrip]
  rcases joinLinesNl_splitlinesAux s [] h2 with h | h <;>
    rw [show splitlines s = splitlinesAux [] s from rfl, h]
  · simpa using h1
  · simp only [List.reverse_nil, List.nil_append]
    exact runState_snoc_nl h1

/-!  The spec-level split (on the newline character only) agrees with the
Python split whenever no other line-break character occurs. -/

theorem splitNlAux_eq_splitlinesAux (s : List Char) :
    ∀ acc, (∀ c ∈ s, isLineBreak c = true → c = '\n') →
      splitNlAux acc s = splitlinesAux acc s := by
  induction s with
  | nil => intro acc h; rfl
  | cons c rest ih =>
      intro acc h
      by_cases hbr : isLineBreak c = true
      · have hc : c = '\n' := h c (by simp) hbr
        subst hc
        rw [splitlinesAux_nl]
        rw [show splitNlAux acc ('\n' :: rest) = acc.reverse :: splitNlAux [] rest
          from by simp [splitNlAux]]
        rw [ih [] (fun e he hb => h e (by simp [he]) hb)]
      · have hc : ¬c = '\n' := by
          rintro rfl
          simp [isLineBreak] at hbr
        rw [splitlinesAux_cons_of_not_break (Bool.not_eq_true _ ▸ hbr)]
        rw [show splitNlAux acc (c :: rest) = splitNlAux (c :: acc) rest
          from by simp [splitNlAux, hc]]
        exact ih (c :: acc) (fun e he hb => h e (by simp [he]) hb)

/-!  The first line of the split of `acc.reverse ++ t` extends `acc.reverse`. -/

theorem splitlinesAux_head : ∀ (acc t : List Char), acc ≠ [] →
    ∃ u L, splitlinesAux acc t = (acc.reverse ++ u) :: L := by
  intro acc t
  induction acc, t using splitlinesAux.induct with
  | case1 acc hemp =>
      intro h
      exact absurd (List.isEmpty_iff.mp hemp) h
  | case2 acc hemp =>
      intro h
      exact ⟨[], [], by simp [splitlinesAux, hemp]⟩
  | case3 acc c hbr ih =>
      intro h
      exact ⟨[], splitlinesAux [] [], by simp [splitlinesAux, hbr]⟩
  | case4 acc c hbr ih =>
      intro h
      obtain ⟨u, L, hu⟩ := ih (by simp)
      refine ⟨c :: u, L, ?_⟩
      rw [show splitlinesAux acc [c] = splitlinesAux (c :: acc) [] from by
        simp [splitlinesAux, hbr], hu]
      simp
  | case5 acc rest2 ih =>
      intro h
      exact ⟨[], splitlinesAux [] rest2, by simp [splitlinesAux]⟩
  | case6 acc d rest2 hd ih =>
      intro h
      exact ⟨[], splitlinesAux [] (d :: rest2), by simp [splitlinesAux, hd]⟩
  | case7 acc c d rest2 hc hbr ih =>
      intro h
      exact ⟨[], splitlinesAux [] (d :: rest2), by simp [splitlinesAux, hc, hbr]⟩
  | case8 acc c d rest2 hc hbr ih =>
      intro h
      obtain ⟨u, L, hu⟩ := ih (by simp)
      refine ⟨c :: u, L, ?_⟩
      rw [show splitlinesAux acc (c :: d :: rest2) =
        splitlinesAux (c :: acc) (d :: rest2) from by
          simp [splitlinesAux, hc, hbr], hu]
      simp

theorem joinLinesNl_head (x : List Char) (M : List (List Char)) :
    ∃ r, joinLinesNl (x :: M) = x ++ r := by
  cases M with
  | nil => exact ⟨['\n'], rfl⟩
  | cons y ys => exact ⟨'\n' :: joinLinesNl (y :: ys), rfl⟩

/-- A chunk of text that ends in a non-whitespace character and contains no
line-break character survives the post-processing pass as a prefix whenever
it is a prefix of the scanned text. -/
theorem prefix_postpass (a : List Char) (c : Char) (hc : pyIsSpace c = false)
    (hbf : ∀ e ∈ a ++ [c], isLineBreak e = false) (t : List Char) :
    (a ++ [c]) <+: postpass ((a ++ [c]) ++ t) := by
  rw [postpass, show splitlines ((a ++ [c]) ++ t) =
    splitlinesAux ((a ++ [c]).reverse ++ []) t from
      splitlinesAux_append_of_break_free hbf [] t]
  obtain ⟨u, L, hu⟩ := splitlinesAux_head ((a ++ [c]).reverse ++ []) t (by simp)
  rw [hu]
  simp only [List.append_nil, List.reverse_reverse] at hu ⊢
  rw [List.map_cons]
  have hr : rstrip ((a ++ [c]) ++ u) = (a ++ [c]) ++ rstrip u := by
    rw [List.append_assoc, List.singleton_append, rstrip_append_cons a u hc]
    simp
  rw [hr]
  obtain ⟨r, hjoin⟩ := joinLinesNl_head ((a ++ [c]) ++ rstrip u) (L.map rstrip)
  rw [hjoin, List.append_assoc]
  exact List.prefix_append _ _

/-- Every `joinLinesNl` result ends with a newline. -/
theorem joinLinesNl_ends_nl : ∀ (L : List (List Char)),
    ∃ t, joinLinesNl L = t ++ ['\n'] := by
  intro L
  induction L with
  | nil => exact ⟨[], rfl⟩
  | cons l L' ih =>
      cases L' with
      | nil => exact ⟨l, rfl⟩
      | cons m L'' =>
          obtain ⟨t, ht⟩ := ih
          exact ⟨l ++ '\n' :: t, by
            rw [joinLinesNl_cons_of_ne_nil (List.cons_ne_nil m L''), ht]
            simp⟩

/-!  The scan output splits at every newline, whatever the state and even
through line comments: no lookahead pair starts at a newline, so the run
decomposes into the processing of the first chunk (up to and including the
newline) followed by the processing of the rest from the state `endState`
reports. -/

theorem scan_split_nl_total_aux :
    ∀ (n : Nat) (a : List Char), a.length ≤ n → ∀ (st : State) (b : List Char),
      scan st (a ++ '\n' :: b) =
        scan st (a ++ ['\n']) ++ scan (endState st (a ++ ['\n'])) b := by
  intro n
  induction n with
  | zero =>
      intro a ha st b
      have hnil : a = [] := by
        cases a with
        | nil => rfl
        | cons c r => simp at ha
      subst hnil
      cases st with
      | lineComment => simp [scan, endState]
      | normal =>
          rw [List.nil_append, List.nil_append,
            scan_cons_nonTrigger (by decide) (by decide) b]
          simp [scan, endState]
      | blockComment =>
          rw [List.nil_append, List.nil_append,
            scan_cons_nonTrigger (by decide) (by decide) b]
          simp [scan, endState]
      | strLit =>
          rw [List.nil_append, List.nil_append,
            scan_cons_nonTrigger (by decide) (by decide) b]
          simp [scan, endState]
      | charLit =>
          rw [List.nil_append, List.nil_append,
            scan_cons_nonTrigger (by decide) (by decide) b]
          simp [scan, endState]
  | succ n ih =>
      intro a ha st b
      have hkeyN : scan State.normal ('\n' :: b) = '\n' :: scan State.normal b :=
        scan_cons_nonTrigger (by decide) (by decide) b
      have hkeyB : scan State.blockComment ('\n' :: b) =
          '\n' :: scan State.blockComment b :=
        scan_cons_nonTrigger (by decide) (by decide) b
      have hkeyS : scan State.strLit ('\n' :: b) = '\n' :: scan State.strLit b :=
        scan_cons_nonTrigger (by decide) (by decide) b
      have hkeyC : scan State.charLit ('\n' :: b) = '\n' :: scan State.charLit b :=
        scan_cons_nonTrigger (by decide) (by decide) b
      rcases a with _ | ⟨c, _ | ⟨d, a''⟩⟩
      · cases st with
        | lineComment => simp [scan, endState]
        | normal => rw [List.nil_append, List.nil_append, hkeyN]; simp [scan, endState]
        | blockComment => rw [List.nil_append, List.nil_append, hkeyB]; simp [scan, endState]
        | strLit => rw [List.nil_append, List.nil_append, hkeyS]; simp [scan, endState]
        | charLit => rw [List.nil_append, List.nil_append, hkeyC]; simp [scan, endState]
      · cases st with
        | lineComment =>
            by_cases hc : c = '\n'
            · subst hc
              simp [scan, endState, hkeyN]
            · simp [scan, endState, hc, hkeyN]
        | normal =>
            by_cases h1 : c = '/'
            · subst h1
              simp [scan, endState, hkeyN]
            · by_cases h3 : c = '"'
              · subst h3
                simp [scan, endState, hkeyS]
              · by_cases h4 : c = '\''
                · subst h4
                  simp [scan, endState, hkeyC]
                · simp [scan, endState, h1, h3, h4, hkeyN]
        | blockComment =>
            by_cases h2 : c = '*'
            · subst h2
              simp [scan, endState, hkeyB]
            · simp [scan, endState, h2, hkeyB]
        | strLit =>
            by_cases h5 : c = '\\'
            · subst h5
              simp [scan, endState, hkeyS]
            · by_cases h3 : c = '"'
              · subst h3
                simp [scan, endState, hkeyN]
              · simp [scan, endState, h5, h3, hkeyS]
        | charLit =>
            by_cases h5 : c = '\\'
            · subst h5
              simp [scan, endState, hkeyC]
            · by_cases h4 : c = '\''
              · subst h4
                simp [scan, endState, hkeyN]
              · simp [scan, endState, h5, h4, hkeyC]
      · simp only [List.length_cons] at ha
        have ha1 : (d :: a'').length ≤ n := by simp only [List.length_cons]; omega
        have ha2 : a''.length ≤ n := by omega
        have ih1 := ih (d :: a'') ha1
        simp only [List.cons_append] at ih1
        cases st with
        | lineComment =>
            simp only [List.cons_append, scan, endState]
            split_ifs <;>
              simp only [List.append_eq, List.cons_append] <;>
              (try rfl) <;>
              (try (conv_lhs => rw [ih1])) <;>
              (try (conv_lhs => rw [ih a'' ha2])) <;>
              (try rfl)
        | normal =>
            simp only [List.cons_append, scan, endState]
            split_ifs <;>
              simp only [List.append_eq, List.cons_append] <;>
              (try rfl) <;>
              (try (conv_lhs => rw [ih1])) <;>
              (try (conv_lhs => rw [ih a'' ha2])) <;>
              (try rfl)
        | blockComment =>
            simp only [List.cons_append, scan, endState]
            split_ifs <;>
              simp only [List.append_eq, List.cons_append] <;>
              (try rfl) <;>
              (try (conv_lhs => rw [ih1])) <;>
              (try (conv_lhs => rw [ih a'' ha2])) <;>
              (try rfl)
        | strLit =>
            simp only [List.cons_append, scan, endState]
            split_ifs <;>
              simp only [List.append_eq, List.cons_append] <;>
              (try rfl) <;>
              (try (conv_lhs => rw [ih1])) <;>
              (try (conv_lhs => rw [ih a'' ha2])) <;>
              (try rfl)
        | charLit =>
            simp only [List.cons_append, scan, endState]
            split_ifs <;>
              simp only [List.append_eq, List.cons_append] <;>
              (try rfl) <;>
              (try (conv_lhs => rw [ih1])) <;>
              (try (conv_lhs => rw [ih a'' ha2])) <;>
              (try rfl)

theorem scan_split_nl_total (a : List Char) (st : State) (b : List Char) :
    scan st (a ++ '\n' :: b) =
      scan st (a ++ ['\n']) ++ scan (endState st (a ++ ['\n'])) b :=
  scan_split_nl_total_aux a.length a le_rfl st b

/-- The scan output of a newline-terminated chunk whose body contains no
newline is a newline-terminated chunk again: only characters before the
newline can be discarded, never the newline itself. -/
theorem scan_chunk_decomp (st : State) {a : List Char} (ha : '\n' ∉ a) :
    ∃ w, scan st (a ++ ['\n']) = w ++ ['\n'] ∧ '\n' ∉ w ∧ w.Sublist a := by
  have hsub : (scan st (a ++ ['\n'])).Sublist (a ++ ['\n']) := scan_sublist _ _
  rw [List.sublist_append_iff] at hsub
  obtain ⟨w, z, hwz, hw, hz⟩ := hsub
  have hcount : (scan st (a ++ ['\n'])).count '\n' = 1 := by
    rw [scan_count_nl, List.count_append]
    simp [List.count_eq_zero.mpr ha]
  have hwnl : '\n' ∉ w := fun hmem => ha (hw.subset hmem)
  rcases List.sublist_singleton.mp hz with rfl | rfl
  · exfalso
    rw [hwz, List.append_nil] at hcount
    rw [List.count_eq_zero.mpr hwnl] at hcount
    exact absurd hcount (by decide)
  · exact ⟨w, hwz, hwnl, hw⟩

/-- Line correspondence through the scanner: splitting the input right
after a newline splits the line decomposition of the scan output at the
image of that newline.  The first output line is produced from the first
input line alone, the remaining output lines from the rest of the input:
no input line is merged with another. -/
theorem splitlines_scan_split (st : State) (a b : List Char)
    (hbf : ∀ c ∈ a, isLineBreak c = false) :
    splitlines (scan st (a ++ '\n' :: b)) =
      (scan st (a ++ ['\n'])).dropLast ::
        splitlines (scan (endState st (a ++ ['\n'])) b) := by
  have ha : '\n' ∉ a := fun h => by simpa [isLineBreak] using hbf '\n' h
  obtain ⟨w, hw, hwnl, hwsub⟩ := scan_chunk_decomp st ha
  have hwbf : ∀ c ∈ w, isLineBreak c = false := fun c hc => hbf c (hwsub.subset hc)
  rw [scan_split_nl_total, hw, List.append_assoc, List.singleton_append,
    splitlines, splitlinesAux_append_of_break_free hwbf, splitlinesAux_nl]
  simp [splitlines, List.dropLast_concat]

/-!  The tagged scan: projecting the tags away recovers the whole input,
and filtering out the line-comment-tagged characters (except the
comment-closing newline) recovers the scan output.  Together these say the
scan deletes exactly the line-comment runs. -/

theorem stateTags_map_snd (st : State) (s : List Char) :
    (stateTags st s).map Prod.snd = s := by
  induction st, s using stateTags.induct <;> simp_all [stateTags]

theorem scan_eq_filter_stateTags (st : State) (s : List Char) :
    scan st s =
      ((stateTags st s).filter (fun p => !discardedTag p)).map Prod.snd := by
  induction st, s using stateTags.induct <;>
    simp_all [stateTags, scan, discardedTag]

/-!  The claims. -/

/-- C1: whenever the scanner is in the Normal state and the two-character
lookahead equals `//`, both marker characters are discarded, every following
character up to (but excluding) the next newline is discarded, the newline
itself is emitted and the scanner returns to Normal; a line-comment run that
reaches the end of the input without a newline is discarded entirely. -/
theorem c1_line_comment_stripping (body rest : List Char) (h : '\n' ∉ body) :
    scan State.normal ('/' :: '/' :: (body ++ '\n' :: rest)) =
      '\n' :: scan State.normal rest ∧
    scan State.normal ('/' :: '/' :: body) = [] := by
  constructor
  · rw [show scan State.normal ('/' :: '/' :: (body ++ '\n' :: rest)) =
      scan State.lineComment (body ++ '\n' :: rest) from by simp [scan]]
    exact scan_lineComment_append_nl rest h
  · rw [show scan State.normal ('/' :: '/' :: body) =
      scan State.lineComment body from by simp [scan]]
    exact scan_lineComment_of_no_nl h

theorem c1_witness :
    scan State.normal ('/' :: '/' :: (['a', 'b'] ++ '\n' :: ['c'])) =
      '\n' :: scan State.normal ['c'] ∧
    scan State.normal ('/' :: '/' :: ['a', 'b']) = [] :=
  c1_line_comment_stripping ['a', 'b'] ['c'] (by decide)

/-- C2 (amended): a line-comment marker inside a string or character literal
is preserved by the scan pass byte for byte together with the whole literal,
and the literal also survives the full transformation (as a prefix of the
output, delimiters included) provided it contains no line-break character.
The post-processing pass can alter a literal that spans lines: trailing
whitespace before a newline inside the literal is stripped, so the original
claim fails for such literals (see the counterexample). -/
theorem c2_literal_preservation (body rest : List Char)
    (hmark : ['/', '/'] <:+: body) :
    (litBody '"' body = true →
      scan State.normal ('"' :: (body ++ '"' :: rest)) =
        '"' :: (body ++ '"' :: scan State.normal rest)) ∧
    (litBody '\'' body = true →
      scan State.normal ('\'' :: (body ++ '\'' :: rest)) =
        '\'' :: (body ++ '\'' :: scan State.normal rest)) ∧
    (litBody '"' body = true → (∀ c ∈ body, isLineBreak c = false) →
      ('"' :: (body ++ ['"'])) <+:
        stripComments ('"' :: (body ++ '"' :: rest))) ∧
    (litBody '\'' body = true → (∀ c ∈ body, isLineBreak c = false) →
      ('\'' :: (body ++ ['\''])) <+:
        stripComments ('\'' :: (body ++ '\'' :: rest))) := by
  refine ⟨fun hb => ?_, fun hb => ?_, fun hb hbf => ?_, fun hb hbf => ?_⟩
  · rw [scan_normal_quote, scan_strLit_append ('"' :: rest) hb, scan_strLit_close]
  · rw [scan_normal_apos, scan_charLit_append ('\'' :: rest) hb, scan_charLit_close]
  · have hA : scan State.normal ('"' :: (body ++ '"' :: rest)) =
        '"' :: (body ++ '"' :: scan State.normal rest) := by
      rw [scan_normal_quote, scan_strLit_append ('"' :: rest) hb, scan_strLit_close]
    rw [stripComments, hA]
    have hbf2 : ∀ e ∈ ('"' :: body) ++ ['"'], isLineBreak e = false := by
      intro e he
      rcases List.mem_append.mp he with he | he
      · rcases List.mem_cons.mp he with rfl | he
        · decide
        · exact hbf e he
      · rw [List.mem_singleton] at he
        subst he
        decide
    have hpre := prefix_postpass ('"' :: body) '"' (by decide) hbf2
      (scan State.normal rest)
    have heq : (('"' :: body) ++ ['"']) ++ scan State.normal rest =
        '"' :: (body ++ '"' :: scan State.normal rest) := by simp
    have heq2 : ('"' :: body) ++ ['"'] = '"' :: (body ++ ['"']) := by simp
    rw [heq, heq2] at hpre
    exact hpre
  · have hA : scan State.normal ('\'' :: (body ++ '\'' :: rest)) =
        '\'' :: (body ++ '\'' :: scan State.normal rest) := by
      rw [scan_normal_apos, scan_charLit_append ('\'' :: rest) hb, scan_charLit_close]
    rw [stripComments, hA]
    have hbf2 : ∀ e ∈ ('\'' :: body) ++ ['\''], isLineBreak e = false := by
      intro e he
      rcases List.mem_append.mp he with he | he
      · rcases List.mem_cons.mp he with rfl | he
        · decide
        · exact hbf e he
      · rw [List.mem_singleton] at he
        subst he
        decide
    have hpre := prefix_postpass ('\'' :: body) '\'' (by decide) hbf2
      (scan State.normal rest)
    have heq : (('\'' :: body) ++ ['\'']) ++ scan State.normal rest =
        '\'' :: (body ++ '\'' :: scan State.normal rest) := by simp
    have heq2 : ('\'' :: body) ++ ['\''] = '\'' :: (body ++ ['\'']) := by simp
    rw [heq, heq2] at hpre
    exact hpre

theorem c2_counterexample :
    litBody '"' ['/', '/', ' ', '\n', 'b'] = true ∧
    ['/', '/'] <:+: ['/', '/', ' ', '\n', 'b'] ∧
    stripComments ['"', '/', '/', ' ', '\n', 'b', '"'] =
      ['"', '/', '/', '\n', 'b', '"', '\n'] ∧
    ¬(['"', '/', '/', ' ', '\n', 'b', '"'] <:+:
        stripComments ['"', '/', '/', ' ', '\n', 'b', '"']) := by decide

theorem c2_witness :
    scan State.normal ('"' :: (['a', '/', '/', 'b'] ++ '"' :: ['x'])) =
      '"' :: (['a', '/', '/', 'b'] ++ '"' :: scan State.normal ['x']) ∧
    ('"' :: (['a', '/', '/', 'b'] ++ ['"'])) <+:
      stripComments ('"' :: (['a', '/', '/', 'b'] ++ '"' :: ['x'])) :=
  ⟨(c2_literal_preservation ['a', '/', '/', 'b'] ['x'] (by decide)).1 (by decide),
   (c2_literal_preservation ['a', '/', '/', 'b'] ['x'] (by decide)).2.2.1
     (by decide) (by decide)⟩

/-- C3 (amended): a block comment (from a `/*` opener up to the first
following `*/`), even one containing the line-comment marker, is emitted
verbatim by the scan pass with both delimiters, and survives the full
transformation (as a prefix of the output) provided its body contains no
line-break character.  The post-processing pass can alter a block comment
that spans lines by stripping trailing whitespace before its internal
newlines, so the original claim fails for such comments (see the
counterexample). -/
theorem c3_block_preservation (body rest : List Char)
    (hterm : hasStarSlash body = false) (hmark : ['/', '/'] <:+: body) :
    scan State.normal ('/' :: '*' :: (body ++ '*' :: '/' :: rest)) =
      '/' :: '*' :: (body ++ '*' :: '/' :: scan State.normal rest) ∧
    ((∀ c ∈ body, isLineBreak c = false) →
      ('/' :: '*' :: (body ++ ['*', '/'])) <+:
        stripComments ('/' :: '*' :: (body ++ '*' :: '/' :: rest))) := by
  have hA : scan State.normal ('/' :: '*' :: (body ++ '*' :: '/' :: rest)) =
      '/' :: '*' :: (body ++ '*' :: '/' :: scan State.normal rest) := by
    rw [show scan State.normal ('/' :: '*' :: (body ++ '*' :: '/' :: rest)) =
      '/' :: '*' :: scan State.blockComment (body ++ '*' :: '/' :: rest) from by
        simp [scan]]
    rw [scan_blockComment_append rest hterm]
  refine ⟨hA, fun hbf => ?_⟩
  rw [stripComments, hA]
  have hbf2 : ∀ e ∈ ('/' :: '*' :: body ++ ['*']) ++ ['/'], isLineBreak e = false := by
    intro e he
    rcases List.mem_append.mp he with he | he
    · rcases List.mem_append.mp he with he | he
      · rcases List.mem_cons.mp he with rfl | he
        · decide
        · rcases List.mem_cons.mp he with rfl | he
          · decide
          · exact hbf e he
      · rw [List.mem_singleton] at he
        subst he
        decide
    · rw [List.mem_singleton] at he
      subst he
      decide
  have hpre := prefix_postpass ('/' :: '*' :: body ++ ['*']) '/' (by decide) hbf2
    (scan State.normal rest)
  have heq : (('/' :: '*' :: body ++ ['*']) ++ ['/']) ++ scan State.normal rest =
      '/' :: '*' :: (body ++ '*' :: '/' :: scan State.normal rest) := by simp
  have heq2 : ('/' :: '*' :: body ++ ['*']) ++ ['/'] =
      '/' :: '*' :: (body ++ ['*', '/']) := by simp
  rw [heq, heq2] at hpre
  exact hpre

theorem c3_counterexample :
    hasStarSlash ['/', '/', ' ', '\n', 'b'] = false ∧
    ['/', '/'] <:+: ['/', '/', ' ', '\n', 'b'] ∧
    stripComments ['/', '*', '/', '/', ' ', '\n', 'b', '*', '/'] =
      ['/', '*', '/', '/', '\n', 'b', '*', '/', '\n'] ∧
    ¬(['/', '*', '/', '/', ' ', '\n', 'b', '*', '/'] <:+:
        stripComments ['/', '*', '/', '/', ' ', '\n', 'b', '*', '/']) := by decide

theorem c3_witness :
    scan State.normal ('/' :: '*' :: (['a', '/', '/', 'b'] ++ '*' :: '/' :: ['x'])) =
      '/' :: '*' :: (['a', '/', '/', 'b'] ++ '*' :: '/' :: scan State.normal ['x']) ∧
    ('/' :: '*' :: (['a', '/', '/', 'b'] ++ ['*', '/'])) <+:
      stripComments ('/' :: '*' :: (['a', '/', '/', 'b'] ++ '*' :: '/' :: ['x'])) :=
  ⟨(c3_block_preservation ['a', '/', '/', 'b'] ['x'] (by decide) (by decide)).1,
   (c3_block_preservation ['a', '/', '/', 'b'] ['x'] (by decide) (by decide)).2
     (by decide)⟩

/-- C4: in the String and Char states a backslash followed by a further
character is consumed and emitted as an atomic two-character unit, the
second character (whatever it is, in particular a quote) never acting as a
state-transition trigger: scanning continues in the same literal state. -/
theorem c4_escape_atomic (d : Char) (rest : List Char) :
    scan State.strLit ('\\' :: d :: rest) = '\\' :: d :: scan State.strLit rest ∧
    scan State.charLit ('\\' :: d :: rest) = '\\' :: d :: scan State.charLit rest := by
  constructor <;> simp [scan]

/-- C5 (amended): for every input whose only line-break character is the
newline itself, (a) the newline count of the output equals the newline count
of the input or exceeds it by exactly one (the forced trailing newline);
(b) no input line is merged with another: splitting the input at any newline
splits the line decomposition of the scan output at the same point, the
first output line being a subsequence of the first input line alone and the
remaining output lines coming from the rest of the input; and (c) the final
output's lines are exactly the right-trimmed scan-output lines, so the
no-merge property transfers to the final output.  For inputs containing
other line-break characters (vertical tab, form feed, carriage return, ...)
Python `splitlines` converts them to newlines, so the original count claim
fails (see the counterexample). -/
theorem c5_newline_count (s : List Char)
    (h2 : ∀ c ∈ s, isLineBreak c = true → c = '\n') :
    ((stripComments s).count '\n' = s.count '\n' ∨
      (stripComments s).count '\n' = s.count '\n' + 1) ∧
    (∀ st a b, s = a ++ '\n' :: b → '\n' ∉ a →
      splitlines (scan st s) =
        (scan st (a ++ ['\n'])).dropLast ::
          splitlines (scan (endState st (a ++ ['\n'])) b) ∧
      ((scan st (a ++ ['\n'])).dropLast).Sublist a) ∧
    (scan State.normal s = [] ∨
      splitlines (stripComments s) =
        (splitlines (scan State.normal s)).map rstrip) := by
  refine ⟨?_, ?_, ?_⟩
  · rw [stripComments, postpass]
    have hbf : ∀ l ∈ splitlines (scan State.normal s), '\n' ∉ l := by
      intro l hl hmem
      have := splitlinesAux_break_free [] (scan State.normal s) (by simp) l hl '\n' hmem
      simp [isLineBreak] at this
    rw [count_joinLinesNl_map_rstrip _ hbf]
    have h2' : ∀ c ∈ scan State.normal s, isLineBreak c = true → c = '\n' :=
      fun c hc => h2 c ((scan_sublist State.normal s).subset hc)
    rcases joinLinesNl_splitlinesAux (scan State.normal s) [] h2' with h | h <;>
      rw [show splitlines (scan State.normal s) =
        splitlinesAux [] (scan State.normal s) from rfl, h]
    · left
      simpa using scan_count_nl State.normal s
    · right
      rw [List.reverse_nil, List.nil_append, List.count_append, scan_count_nl]
      simp
  · intro st a b hs ha
    subst hs
    have hbf : ∀ c ∈ a, isLineBreak c = false := by
      intro c hc
      by_contra hb
      have hb' : isLineBreak c = true := by
        cases hx : isLineBreak c with
        | false => exact absurd hx hb
        | true => rfl
      exact ha (h2 c (by simp [hc]) hb' ▸ hc)
    obtain ⟨w, hw, hwnl, hwsub⟩ := scan_chunk_decomp st ha
    refine ⟨splitlines_scan_split st a b hbf, ?_⟩
    rw [hw, List.dropLast_concat]
    exact hwsub
  · by_cases hnil : scan State.normal s = []
    · exact Or.inl hnil
    · right
      rw [stripComments, postpass]
      apply splitlines_joinLinesNl
      · simp only [ne_eq, List.map_eq_nil]
        rw [splitlines_eq_nil_iff]
        exact hnil
      · intro l hl c hc
        obtain ⟨m, hm, rfl⟩ := List.mem_map.mp hl
        exact splitlinesAux_break_free [] (scan State.normal s) (by simp) m hm c
          (mem_rstrip hc)

theorem c5_counterexample :
    (stripComments ['a', '\x0b', 'b', '\x0b', 'c']).count '\n' = 3 ∧
    (['a', '\x0b', 'b', '\x0b', 'c'] : List Char).count '\n' = 0 ∧
    ¬((stripComments ['a', '\x0b', 'b', '\x0b', 'c']).count '\n' ≤
        (['a', '\x0b', 'b', '\x0b', 'c'] : List Char).count '\n' + 1) := by decide

theorem c5_witness :
    ((stripComments ['a', '/', '/', 'c', '\n', 'b']).count '\n' =
        (['a', '/', '/', 'c', '\n', 'b'] : List Char).count '\n' ∨
      (stripComments ['a', '/', '/', 'c', '\n', 'b']).count '\n' =
        (['a', '/', '/', 'c', '\n', 'b'] : List Char).count '\n' + 1) ∧
    (splitlines (scan State.normal ['a', '/', '/', 'c', '\n', 'b']) =
      (scan State.normal (['a', '/', '/', 'c'] ++ ['\n'])).dropLast ::
        splitlines (scan (endState State.normal (['a', '/', '/', 'c'] ++ ['\n'])) ['b']) ∧
      ((scan State.normal (['a', '/', '/', 'c'] ++ ['\n'])).dropLast).Sublist
        ['a', '/', '/', 'c']) ∧
    (scan State.normal ['a', '/', '/', 'c', '\n', 'b'] = [] ∨
      splitlines (stripComments ['a', '/', '/', 'c', '\n', 'b']) =
        (splitlines (scan State.normal ['a', '/', '/', 'c', '\n', 'b'])).map rstrip) :=
  ⟨(c5_newline_count ['a', '/', '/', 'c', '\n', 'b'] (by decide)).1,
   (c5_newline_count ['a', '/', '/', 'c', '\n', 'b'] (by decide)).2.1
     State.normal ['a', '/', '/', 'c'] ['b'] (by decide) (by decide),
   (c5_newline_count ['a', '/', '/', 'c', '\n', 'b'] (by decide)).2.2⟩

/-- C6 (amended): for every input (including the empty input) the final
output ends with a newline.  It does not always end with exactly one: an
input whose last split line is empty (for example one ending in two
newlines) keeps its blank final line, so the output can end with two
consecutive newlines, refuting the original claim (see the
counterexample). -/
theorem c6_trailing_newline (s : List Char) :
    ∃ t, stripComments s = t ++ ['\n'] := by
  rw [stripComments, postpass]
  exact joinLinesNl_ends_nl _

theorem c6_counterexample :
    stripComments ['a', '\n', '\n'] = ['a', '\n', '\n'] ∧
    ['\n', '\n'] <:+ stripComments ['a', '\n', '\n'] := by decide

/-- C7 (amended): for every input on which the scanner never enters the
LineComment state and whose only line-break character is the newline, the
transformation returns the input unchanged except for per-line
trailing-whitespace removal and a final newline (formalized by
`specNormalize`), and it is idempotent on such inputs.  Without the
line-break restriction the first part fails: a carriage return is rewritten
to a newline by the post-processing pass (see the counterexample). -/
theorem c7_idempotent (s : List Char)
    (h1 : (runState State.normal s).isSome = true)
    (h2 : ∀ c ∈ s, isLineBreak c = true → c = '\n') :
    stripComments s = specNormalize s ∧
    stripComments (stripComments s) = stripComments s := by
  have hpost : stripComments s = postpass s := stripComments_eq_postpass h1
  constructor
  · rw [hpost, postpass, specNormalize, splitNlAux_eq_splitlinesAux s [] h2]
    rfl
  · have hB1 : (runState State.normal (stripComments s)).isSome = true := by
      rw [hpost]
      exact runState_postpass h1 h2
    rw [stripComments_eq_postpass hB1, hpost, postpass_idem]

theorem c7_counterexample :
    (runState State.normal ['a', '\x0d', 'b']).isSome = true ∧
    stripComments ['a', '\x0d', 'b'] = ['a', '\n', 'b', '\n'] ∧
    specNormalize ['a', '\x0d', 'b'] = ['a', '\x0d', 'b', '\n'] ∧
    stripComments ['a', '\x0d', 'b'] ≠ specNormalize ['a', '\x0d', 'b'] := by decide

theorem c7_witness :
    stripComments ['a', ' ', '\n', 'b'] = specNormalize ['a', ' ', '\n', 'b'] ∧
    stripComments (stripComments ['a', ' ', '\n', 'b']) =
      stripComments ['a', ' ', '\n', 'b'] :=
  c7_idempotent ['a', ' ', '\n', 'b'] (by decide) (by decide)

/-- C8: the scan pass copies or discards each input character in order: its
output is a subsequence of the input; the tagged scan, which records for
every input character the state in which the scanner consumed it, projects
back to the whole input, and the scan output is exactly the input minus the
characters consumed in the LineComment state other than the terminating
newline (i.e. minus exactly the line-comment runs, `//` markers included);
and when the scanner never enters the LineComment state nothing at all is
discarded. -/
theorem c8_scan_subsequence (st : State) (s : List Char) :
    (scan st s).Sublist s ∧
    (stateTags st s).map Prod.snd = s ∧
    scan st s =
      ((stateTags st s).filter (fun p => !discardedTag p)).map Prod.snd ∧
    ((runState st s).isSome = true → scan st s = s) :=
  ⟨scan_sublist st s, stateTags_map_snd st s, scan_eq_filter_stateTags st s,
   fun h => scan_eq_self_of_runState h⟩

theorem c8_witness :
    (stateTags State.normal ['a', '/', '/', 'x', '\n', 'b']).map Prod.snd =
      ['a', '/', '/', 'x', '\n', 'b'] ∧
    scan State.normal ['a', '/', '/', 'x', '\n', 'b'] =
      ((stateTags State.normal ['a', '/', '/', 'x', '\n', 'b']).filter
        (fun p => !discardedTag p)).map Prod.snd ∧
    scan State.normal ['a', 'b'] = ['a', 'b'] :=
  ⟨(c8_scan_subsequence State.normal ['a', '/', '/', 'x', '\n', 'b']).2.1,
   (c8_scan_subsequence State.normal ['a', '/', '/', 'x', '\n', 'b']).2.2.1,
   (c8_scan_subsequence State.normal ['a', 'b']).2.2.2 (by decide)⟩

/-- C9: the driver exits with status 1 after printing the usage message when
no path argument is supplied, and with status 2 after printing an error
message naming the path when the path does not exist; in both cases no
backup is created and no file is written. -/
theorem c9_driver_errors (argv : List (List Char)) (pathExists : List Char → Bool) :
    (argv.length < 2 →
      runDriver argv pathExists = ⟨1, [usageMsg], false, false⟩) ∧
    (∀ p, 2 ≤ argv.length → argv.getD 1 [] = p → pathExists p = false →
      runDriver argv pathExists = ⟨2, [notFoundMsg p], false, false⟩ ∧
        p <:+ notFoundMsg p) := by
  constructor
  · intro h
    simp [runDriver, h]
  · intro p hlen hp hex
    subst hp
    refine ⟨?_, List.suffix_append _ _⟩
    rw [runDriver, if_neg (by omega)]
    show (if pathExists (argv.getD 1 []) = true then _ else _) = _
    rw [hex]
    simp

theorem c9_witness :
    runDriver [['x']] (fun _ => true) = ⟨1, [usageMsg], false, false⟩ ∧
    runDriver [['x'], ['f']] (fun _ => false) =
      ⟨2, [notFoundMsg ['f']], false, false⟩ :=
  ⟨(c9_driver_errors [['x']] (fun _ => true)).1 (by decide),
   ((c9_driver_errors [['x'], ['f']] (fun _ => false)).2 ['f']
     (by decide) rfl rfl).1⟩

/-- C10: every iteration of the scan loop advances the index by exactly 1 or
exactly 2, in every state and on every branch, so the loop terminates on
finite input. -/
theorem c10_loop_advance (s : List Char) (st : State) (i : Nat)
    (h : i < s.length) :
    (loopStep s st i).2.1 = i + 1 ∨ (loopStep s st i).2.1 = i + 2 := by
  cases st <;> simp only [loopStep] <;> split_ifs <;> simp

theorem c10_witness :
    (loopStep ['a', 'b'] State.normal 0).2.1 = 0 + 1 ∨
    (loopStep ['a', 'b'] State.normal 0).2.1 = 0 + 2 :=
  c10_loop_advance ['a', 'b'] State.normal 0 (by decide)

/-!  The index-based rendering of the loop agrees with the list-based one:
running `loopStep` from index `i` produces exactly `scan` on the rest of the
input.  This ties the two models of the source loop together. -/

theorem scan_normal_other {c : Char} (h1 : ¬c = '/') (h3 : ¬c = '"')
    (h4 : ¬c = '\'') (u : List Char) :
    scan State.normal (c :: u) = c :: scan State.normal u := by
  cases u <;> simp [scan, h1, h3, h4]

theorem scan_blockComment_other {c : Char} (h : ¬c = '*') (u : List Char) :
    scan State.blockComment (c :: u) = c :: scan State.blockComment u := by
  cases u <;> simp [scan, h]

theorem scan_strLit_other {c : Char} (h5 : ¬c = '\\') (h3 : ¬c = '"')
    (u : List Char) : scan State.strLit (c :: u) = c :: scan State.strLit u := by
  cases u <;> simp [scan, h5, h3]

theorem scan_charLit_other {c : Char} (h5 : ¬c = '\\') (h4 : ¬c = '\'')
    (u : List Char) : scan State.charLit (c :: u) = c :: scan State.charLit u := by
  cases u <;> simp [scan, h5, h4]

theorem loopRun_eq_scan_aux : ∀ (n : Nat) (s : List Char) (st : State) (i : Nat),
    s.length - i ≤ n → loopRun s st i = scan st (s.drop i) := by
  intro n
  induction n with
  | zero =>
      intro s st i hn
      have h : ¬i < s.length := by omega
      rw [loopRun, dif_neg h, List.drop_eq_nil_of_le (by omega)]
      simp [scan]
  | succ n ih =>
      intro s st i hn
      by_cases h : i < s.length
      · have hdrop : s.drop i = s[i] :: s.drop (i + 1) := List.drop_eq_getElem_cons h
        have hgi : s[i]? = some s[i] := List.getElem?_eq_getElem h
        rw [loopRun, dif_pos h, hdrop]
        cases st with
        | normal =>
            by_cases e1 : s[i] = '/'
            · rcases hnext : s[i + 1]? with _ | d
              · have hlen : s.length ≤ i + 1 := List.getElem?_eq_none_iff.mp hnext
                have hd1 : s.drop (i + 1) = [] := List.drop_eq_nil_of_le hlen
                simp [-List.getElem_cons_drop, loopStep, hgi, e1, hnext, hd1, scan,
                  ih s State.normal (i + 1) (by omega)]
              · have hlt : i + 1 < s.length := by
                  by_contra hge
                  rw [List.getElem?_eq_none (by omega)] at hnext
                  exact absurd hnext (by simp)
                have hd2 : s.drop (i + 1) = s[i + 1] :: s.drop (i + 2) :=
                  List.drop_eq_getElem_cons hlt
                have hdv : d = s[i + 1] := by
                  rw [List.getElem?_eq_getElem hlt] at hnext
                  exact (Option.some.inj hnext).symm
                subst hdv
                by_cases e2 : s[i + 1] = '/'
                · simp [-List.getElem_cons_drop, loopStep, hgi, e1, e2, hnext, scan, hd2,
                    ih s State.lineComment (i + 2) (by omega)]
                · by_cases e3 : s[i + 1] = '*'
                  · simp [-List.getElem_cons_drop, loopStep, hgi, e1, e2, e3, hnext, scan, hd2,
                      ih s State.blockComment (i + 2) (by omega)]
                  · simp [-List.getElem_cons_drop, loopStep, hgi, e1, e2, e3, hnext, scan, hd2,
                      ih s State.normal (i + 1) (by omega)]
            · by_cases e3 : s[i] = '"'
              · simp [-List.getElem_cons_drop, loopStep, hgi, e1, e3, scan_normal_quote,
                  ih s State.strLit (i + 1) (by omega)]
              · by_cases e4 : s[i] = '\''
                · simp [-List.getElem_cons_drop, loopStep, hgi, e1, e3, e4, scan_normal_apos,
                    ih s State.charLit (i + 1) (by omega)]
                · simp [-List.getElem_cons_drop, loopStep, hgi, e1, e3, e4, scan_normal_other e1 e3 e4,
                    ih s State.normal (i + 1) (by omega)]
        | lineComment =>
            by_cases e : s[i] = '\n'
            · simp [-List.getElem_cons_drop, loopStep, hgi, e, scan, ih s State.normal (i + 1) (by omega)]
            · simp [-List.getElem_cons_drop, loopStep, hgi, e, scan, ih s State.lineComment (i + 1) (by omega)]
        | blockComment =>
            by_cases e1 : s[i] = '*'
            · rcases hnext : s[i + 1]? with _ | d
              · have hlen : s.length ≤ i + 1 := List.getElem?_eq_none_iff.mp hnext
                have hd1 : s.drop (i + 1) = [] := List.drop_eq_nil_of_le hlen
                simp [-List.getElem_cons_drop, loopStep, hgi, e1, hnext, hd1, scan,
                  ih s State.blockComment (i + 1) (by omega)]
              · have hlt : i + 1 < s.length := by
                  by_contra hge
                  rw [List.getElem?_eq_none (by omega)] at hnext
                  exact absurd hnext (by simp)
                have hd2 : s.drop (i + 1) = s[i + 1] :: s.drop (i + 2) :=
                  List.drop_eq_getElem_cons hlt
                have hdv : d = s[i + 1] := by
                  rw [List.getElem?_eq_getElem hlt] at hnext
                  exact (Option.some.inj hnext).symm
                subst hdv
                by_cases e2 : s[i + 1] = '/'
                · simp [-List.getElem_cons_drop, loopStep, hgi, e1, e2, hnext, scan, hd2,
                    ih s State.normal (i + 2) (by omega)]
                · simp [-List.getElem_cons_drop, loopStep, hgi, e1, e2, hnext, scan, hd2,
                    ih s State.blockComment (i + 1) (by omega)]
            · simp [-List.getElem_cons_drop, loopStep, hgi, e1, scan_blockComment_other e1,
                ih s State.blockComment (i + 1) (by omega)]
        | strLit =>
            by_cases e1 : s[i] = '\\'
            · by_cases hlt : i + 1 < s.length
              · have hd2 : s.drop (i + 1) = s[i + 1] :: s.drop (i + 2) :=
                  List.drop_eq_getElem_cons hlt
                have hgi1 : s[i + 1]? = some s[i + 1] := List.getElem?_eq_getElem hlt
                simp [-List.getElem_cons_drop, loopStep, hgi, e1, hlt, hgi1, hd2, scan,
                  ih s State.strLit (i + 2) (by omega)]
              · have hd1 : s.drop (i + 1) = [] := List.drop_eq_nil_of_le (by omega)
                simp [-List.getElem_cons_drop, loopStep, hgi, e1, hlt, hd1, scan,
                  ih s State.strLit (i + 1) (by omega)]
            · by_cases e2 : s[i] = '"'
              · simp [-List.getElem_cons_drop, loopStep, hgi, e1, e2, scan_strLit_close,
                  ih s State.normal (i + 1) (by omega)]
              · simp [-List.getElem_cons_drop, loopStep, hgi, e1, e2, scan_strLit_other e1 e2,
                  ih s State.strLit (i + 1) (by omega)]
        | charLit =>
            by_cases e1 : s[i] = '\\'
            · by_cases hlt : i + 1 < s.length
              · have hd2 : s.drop (i + 1) = s[i + 1] :: s.drop (i + 2) :=
                  List.drop_eq_getElem_cons hlt
                have hgi1 : s[i + 1]? = some s[i + 1] := List.getElem?_eq_getElem hlt
                simp [-List.getElem_cons_drop, loopStep, hgi, e1, hlt, hgi1, hd2, scan,
                  ih s State.charLit (i + 2) (by omega)]
              · have hd1 : s.drop (i + 1) = [] := List.drop_eq_nil_of_le (by omega)
                simp [-List.getElem_cons_drop, loopStep, hgi, e1, hlt, hd1, scan,
                  ih s State.charLit (i + 1) (by omega)]
            · by_cases e2 : s[i] = '\''
              · simp [-List.getElem_cons_drop, loopStep, hgi, e1, e2, scan_charLit_close,
                  ih s State.normal (i + 1) (by omega)]
              · simp [-List.getElem_cons_drop, loopStep, hgi, e1, e2, scan_charLit_other e1 e2,
                  ih s State.charLit (i + 1) (by omega)]
      · have hd1 : s.drop i = [] := List.drop_eq_nil_of_le (by omega)
        rw [loopRun, dif_neg h, hd1]
        simp [scan]

/-- Running the Python loop over the whole input from index 0 produces
exactly the scan pass: the two renderings of the source loop agree. -/
theorem loopRun_eq_scan (s : List Char) (st : State) :
    loopRun s st 0 = scan st s := by
  simpa using loopRun_eq_scan_aux s.length s st 0 (by omega)

end StripComments
